import Mathlib

/-!
Verification of the `aritexpr` expression parser and evaluator.

The Rust sources are shallowly embedded: machine integers (`i64`) become `Int`
with explicit range checks, fallible operations return explicit result values,
and the two recursive loops (the token iterator and the right-to-left parser)
are given a fuel argument that the top-level wrappers instantiate with more
fuel than the loops can consume (each iteration consumes at least one input
element), so the `outOfFuel` outcome is unreachable from the wrappers.
Reachable Rust panics (`panic!`, `unwrap`, `debug_assert!`) are modelled by an
explicit `panicked` outcome.
-/

/-- Result of a Rust computation: a value, an error value, a process abort
(`panic!`, failed `unwrap`/`debug_assert!`), or fuel exhaustion of the
embedding (unreachable from the top-level wrappers). -/
inductive RRes (ε α : Type) where
  | ok (a : α)
  | fail (e : ε)
  | panicked
  | outOfFuel
deriving DecidableEq

/-! ## Character classes and `i64` helpers -/

/-- Models Rust `char::is_whitespace`: the Unicode White_Space property
(U+0009–U+000D, U+0020, U+0085, U+00A0, U+1680, U+2000–U+200A, U+2028,
U+2029, U+202F, U+205F, U+3000). -/
def rustIsWhitespace (c : Char) : Bool :=
  decide ((9 ≤ c.toNat ∧ c.toNat ≤ 13) ∨ c.toNat = 32 ∨ c.toNat = 0x85 ∨
    c.toNat = 0xA0 ∨ c.toNat = 0x1680 ∨ (0x2000 ≤ c.toNat ∧ c.toNat ≤ 0x200A) ∨
    c.toNat = 0x2028 ∨ c.toNat = 0x2029 ∨ c.toNat = 0x202F ∨ c.toNat = 0x205F ∨
    c.toNat = 0x3000)

/-- Models Rust `char::is_numeric` (true for the Unicode number categories
Nd, Nl, No) on the characters this development quantifies over: on ASCII it
is exact — the only ASCII characters in those categories are the digits
`0`-`9` — and of the non-ASCII numeric characters the Arabic-Indic digit
block U+0660–U+0669 (category Nd) is included for the concrete
counterexample.  Other non-ASCII numeric characters are not modelled, so
every theorem about the lexer restricts its quantified inputs to characters
on which this model agrees with Rust. -/
def rustIsNumeric (c : Char) : Bool :=
  decide ((48 ≤ c.toNat ∧ c.toNat ≤ 57) ∨ (0x660 ≤ c.toNat ∧ c.toNat ≤ 0x669))

/-- Models Rust `char::to_digit(10)`: only the ASCII digits `0`-`9` count. -/
def rustToDigit (c : Char) : Option Nat :=
  if 48 ≤ c.toNat ∧ c.toNat ≤ 57 then some (c.toNat - 48) else none

def i64Min : Int := -(2 ^ 63)

def i64Max : Int := 2 ^ 63 - 1

/-- The value fits in a signed 64-bit integer. -/
def i64InRange (n : Int) : Prop := i64Min ≤ n ∧ n ≤ i64Max

instance (n : Int) : Decidable (i64InRange n) :=
  inferInstanceAs (Decidable (_ ∧ _))

/-- Models Rust `i64::checked_add` for in-range arguments. -/
def checkedAdd (a b : Int) : Option Int :=
  if i64InRange (a + b) then some (a + b) else none

/-- Models Rust `i64::checked_sub` for in-range arguments. -/
def checkedSub (a b : Int) : Option Int :=
  if i64InRange (a - b) then some (a - b) else none

/-- Models Rust `i64::checked_mul` for in-range arguments. -/
def checkedMul (a b : Int) : Option Int :=
  if i64InRange (a * b) then some (a * b) else none

/-- Models Rust `i64::checked_rem` for in-range arguments: `None` on a zero
divisor or on the overflow edge case `i64::MIN % -1`; Rust `%` is the
truncated remainder `Int.tmod`. -/
def checkedRem (a b : Int) : Option Int :=
  if b = 0 ∨ (a = i64Min ∧ b = -1) then none else some (a.tmod b)

/-- Models Rust `i64::checked_div` for in-range arguments: `None` on a zero
divisor or on the overflow edge case `i64::MIN / -1`; Rust `/` is the
truncated quotient `Int.tdiv`. -/
def checkedDiv (a b : Int) : Option Int :=
  if b = 0 ∨ (a = i64Min ∧ b = -1) then none else some (a.tdiv b)

/-- Accumulating loop of Rust `i64::from_str`: digits in order of decreasing
significance, with a checked multiply and a checked add (positive) or
checked subtract (negative) at each step. -/
def parseDigitsAcc (positive : Bool) (acc : Int) : List Char → Option Int
  | [] => some acc
  | c :: cs =>
    (rustToDigit c).bind fun d =>
      (checkedMul acc 10).bind fun m =>
        (cond positive (checkedAdd m d) (checkedSub m d)).bind fun acc2 =>
          parseDigitsAcc positive acc2 cs

/-- Models Rust `str::parse::<i64>` (`i64::from_str`): an optional sign
followed by a non-empty run of ASCII digits, with overflow checking. -/
def rustParseI64 : List Char → Option Int
  | [] => none
  | c :: cs =>
    if c = '+' then (if cs.isEmpty then none else parseDigitsAcc true 0 cs)
    else if c = '-' then (if cs.isEmpty then none else parseDigitsAcc false 0 cs)
    else parseDigitsAcc true 0 (c :: cs)

/-! ## Tokens and the lexer (`src/token.rs`, `src/token/intring.rs`) -/

/-- `IntRingToken` from `src/token/intring.rs`. -/
inductive IntRingToken where
  | LeftParenthesis
  | RightParenthesis
  | PlusSign
  | MinusSign
  | MultiplicationSign
  | DivisionSign
  | DecimalInteger (d : Int)
  | Modulo
deriving DecidableEq

/-- `TokenError` from `src/token.rs`. -/
structure TokenError where
  message : String
  position : Nat
deriving DecidableEq

/-- `TokenWithPos` from `src/token.rs`, specialised to `IntRingToken`. -/
structure TokenWithPos where
  token : IntRingToken
  position : Nat
deriving DecidableEq

/-- Models Rust `str::chars().enumerate()` starting at index `k`. -/
def enumerate (k : Nat) : List Char → List (Nat × Char)
  | [] => []
  | c :: cs => (k, c) :: enumerate (k + 1) cs

/-- `IntRingTokenParser::read_next_token` from `src/token/intring.rs`.  The
character iterator is modelled as the positioned head `pc` (the Rust code
peeks and unwraps it, so it exists) plus the remaining characters `rest`;
the function returns the token and the characters left unconsumed. -/
def read_next_token (pc : Nat × Char) (rest : List (Nat × Char)) :
    Except TokenError (IntRingToken × List (Nat × Char)) :=
  let pos := pc.1
  let c := pc.2
  if c = '(' then .ok (.LeftParenthesis, rest)
  else if c = ')' then .ok (.RightParenthesis, rest)
  else if c = '+' then .ok (.PlusSign, rest)
  else if c = '-' then .ok (.MinusSign, rest)
  else if c = '*' then .ok (.MultiplicationSign, rest)
  else if c = '/' then .ok (.DivisionSign, rest)
  else if c = 'm' then
    if ((pc :: rest).take 3).map Prod.snd = ['m', 'o', 'd'] then
      .ok (.Modulo, (pc :: rest).drop 3)
    else .error ⟨"Invalid token", pos⟩
  else if rustIsNumeric c then
    let run := (pc :: rest).takeWhile (fun q => rustIsNumeric q.2)
    match rustParseI64 (run.map Prod.snd) with
    | some d => .ok (.DecimalInteger d, (pc :: rest).dropWhile (fun q => rustIsNumeric q.2))
    | none => .error ⟨"Decimal number too big", pos⟩
  else .error ⟨"Invalid token", pos⟩

/-- The loop of `TokenIterator::next` from `src/token.rs`, drained eagerly as
in `parse_int_ring_expression` (`collect` stops at the first error).  Each
iteration skips whitespace and reads one token; `fuel` bounds the number of
iterations. -/
def tokenizeLoop : Nat → List (Nat × Char) → RRes TokenError (List TokenWithPos)
  | 0, _ => .outOfFuel
  | fuel + 1, input =>
    match input.dropWhile (fun q => rustIsWhitespace q.2) with
    | [] => .ok []
    | pc :: rest =>
      match read_next_token pc rest with
      | .error e => .fail e
      | .ok (t, rem) =>
        match tokenizeLoop fuel rem with
        | .ok ts => .ok (⟨t, pc.1⟩ :: ts)
        | r => r

/-- `TokenIterator::new` on a string followed by a full drain: every token of
the input in order, or the first `TokenError`.  Each iteration consumes at
least one character, so `s.length + 1` fuel never runs out. -/
def tokenize (s : List Char) : RRes TokenError (List TokenWithPos) :=
  tokenizeLoop (s.length + 1) (enumerate 0 s)

/-! ## The integer ring (`src/expression/ring.rs`, `src/expression/ring/intring.rs`) -/

/-- `RingError` from `src/expression/ring.rs`. -/
structure RingError where
  message : String
deriving DecidableEq

/-- `IntRingElement` from `src/expression/ring/intring.rs`: a wrapped `i64`. -/
structure IntRingElement where
  value : Int
deriving DecidableEq

/-- `IntRing::ring_result`. -/
def ringResult : Option Int → Except RingError IntRingElement
  | some val => .ok ⟨val⟩
  | none => .error ⟨"Overflow"⟩

/-- `IntRing::add`. -/
def IntRing.add (elm1 elm2 : IntRingElement) : Except RingError IntRingElement :=
  ringResult (checkedAdd elm1.value elm2.value)

/-- `IntRing::sub`. -/
def IntRing.sub (elm1 elm2 : IntRingElement) : Except RingError IntRingElement :=
  ringResult (checkedSub elm1.value elm2.value)

/-- `IntRing::mul`. -/
def IntRing.mul (elm1 elm2 : IntRingElement) : Except RingError IntRingElement :=
  ringResult (checkedMul elm1.value elm2.value)

/-- `IntRing::div`: exact divisibility is required first, then the checked
quotient is taken. -/
def IntRing.div (elm1 elm2 : IntRingElement) : Except RingError IntRingElement :=
  match checkedRem elm1.value elm2.value with
  | some d =>
    if d ≠ 0 then .error ⟨"Result not in ring"⟩
    else ringResult (checkedDiv elm1.value elm2.value)
  | none => ringResult (checkedDiv elm1.value elm2.value)

/-! ## The expression tree and its evaluator (`src/expression.rs`) -/

/-- `ExpressionComponent` from `src/expression.rs`, specialised to `IntRing`. -/
inductive ExpressionComponent where
  | RingElement (element : IntRingElement)
  | Parentheses (inner : ExpressionComponent)
  | UnaryMinus (inner : ExpressionComponent)
  | Addition (left right : ExpressionComponent)
  | Subtraction (left right : ExpressionComponent)
  | Multiplication (left right : ExpressionComponent)
  | Division (left right : ExpressionComponent)
deriving DecidableEq

/-- `ExpressionComponent::new_int_element` from `src/expression/ring/intring.rs`. -/
def ExpressionComponent.new_int_element (value : Int) : ExpressionComponent :=
  .RingElement ⟨value⟩

/-- `ExpressionComponent::is_operator`. -/
def ExpressionComponent.isOperator : ExpressionComponent → Bool
  | .RingElement _ => false
  | .Addition _ _ => true
  | .Subtraction _ _ => true
  | .Multiplication _ _ => true
  | .Division _ _ => true
  | .Parentheses _ => false
  | .UnaryMinus _ => false

/-- `ExpressionComponent::precedence` (`i32::MAX` for the atomic variants). -/
def ExpressionComponent.precedence : ExpressionComponent → Int
  | .RingElement _ => 2147483647
  | .Parentheses _ => 2147483647
  | .UnaryMinus _ => 2147483647
  | .Addition _ _ => 0
  | .Subtraction _ _ => 0
  | .Multiplication _ _ => 1
  | .Division _ _ => 1

/-- `EvaluateExpressionError` from `src/expression.rs`. -/
structure EvaluateExpressionError where
  message : String
deriving DecidableEq

/-- `ExpressionComponent::evaluate_binary_operation` applied to the already
evaluated operands: the left result is examined first (left-to-right
short-circuit), then the ring operation runs and a `RingError` converts to
an `EvaluateExpressionError` keeping its message. -/
def applyRing (f : IntRingElement → IntRingElement → Except RingError IntRingElement)
    (lv rv : RRes EvaluateExpressionError IntRingElement) :
    RRes EvaluateExpressionError IntRingElement :=
  match lv with
  | .ok a =>
    match rv with
    | .ok b =>
      match f a b with
      | .ok v => .ok v
      | .error e => .fail ⟨e.message⟩
    | r => r
  | r => r

/-- `ExpressionComponent::evaluate`.  The `UnaryMinus` arm is
`panic!("implement")` in the source and is modelled as `panicked`. -/
def evaluate : ExpressionComponent → RRes EvaluateExpressionError IntRingElement
  | .RingElement r => .ok r
  | .Parentheses inner => evaluate inner
  | .UnaryMinus _ => .panicked
  | .Addition left right => applyRing IntRing.add (evaluate left) (evaluate right)
  | .Subtraction left right => applyRing IntRing.sub (evaluate left) (evaluate right)
  | .Multiplication left right => applyRing IntRing.mul (evaluate left) (evaluate right)
  | .Division left right => applyRing IntRing.div (evaluate left) (evaluate right)

/-! ## The parser (`src/expression/parser.rs`) -/

/-- `ParseExpressionErrorKind` from `src/expression/parser.rs`. -/
inductive ParseExpressionErrorKind where
  | Unspecified
  | TokenParseError
  | NoExpression
deriving DecidableEq

/-- `ParseExpressionError` from `src/expression/parser.rs`. -/
structure ParseExpressionError where
  message : String
  position : Nat
  kind : ParseExpressionErrorKind
deriving DecidableEq

/-- State returned by one call of the recursive parser: the function result
(`Ok(Option<ExpressionComponent>)` in Rust), the final contents of the
`parsed_expression` in-out slot, and the tokens left unconsumed in the
shared reversed iterator. -/
abbrev ParseState := Option ExpressionComponent × Option ExpressionComponent × List TokenWithPos

/-- The rotation step of the operator arm: `swap(op.left_mut(), lhs.right_mut());
swap(lhs.right_mut(), &mut op)` leaves `lhs` with its old right child replaced
by the new operator node built from that child and `rhs`.  `right_mut` panics
on a non-operator node. -/
def rotateOperator (construct : ExpressionComponent → ExpressionComponent → ExpressionComponent)
    (lhs rhs : ExpressionComponent) : RRes ParseExpressionError ExpressionComponent :=
  match lhs with
  | .Addition l r => .ok (.Addition l (construct r rhs))
  | .Subtraction l r => .ok (.Subtraction l (construct r rhs))
  | .Multiplication l r => .ok (.Multiplication l (construct r rhs))
  | .Division l r => .ok (.Division l (construct r rhs))
  | _ => .panicked

/-- The binary-operator arm of the recursive parser, applied to the result of
the leftward recursive call (`lhsResult`).  `rhs` is the pending expression
taken as right-hand side and `position` the operator token's position. -/
def operatorArm (construct : ExpressionComponent → ExpressionComponent → ExpressionComponent)
    (position : Nat) (rhs : ExpressionComponent)
    (lhsResult : RRes ParseExpressionError ParseState) :
    RRes ParseExpressionError ParseState :=
  match lhsResult with
  | .ok (none, _, _) =>
    .fail ⟨"Missing left hand side expression for operator", position, .Unspecified⟩
  | .ok (some lhs, pending2, rem) =>
    let operatorExpression := construct (.new_int_element 0) rhs
    if lhs.isOperator = true ∧ lhs.precedence < operatorExpression.precedence then
      match rotateOperator construct lhs rhs with
      | .ok rotated => .ok (some rotated, pending2, rem)
      | .fail e => .fail e
      | .panicked => .panicked
      | .outOfFuel => .outOfFuel
    else .ok (some (construct lhs rhs), pending2, rem)
  | r => r

/-- `parse_int_ring_expression_from_tokens_rec` from `src/expression/parser.rs`.
The shared `tokens.iter().rev().peekable()` iterator is modelled as the list of
tokens still to be consumed (already in reversed order); the `&mut
Option<ExpressionComponent>` slot is threaded explicitly (see `ParseState`).
`fuel` bounds the recursion depth; each recursive call strictly shrinks the
token list, so `tokens.length + 1` fuel never runs out. -/
def parse_int_ring_expression_from_tokens_rec :
    Nat → List TokenWithPos → Option ExpressionComponent → Bool →
    RRes ParseExpressionError ParseState
  | 0, _, _, _ => .outOfFuel
  | _ + 1, [], pending, _ =>
    match pending with
    | some expr => .ok (some expr, none, [])
    | none => .ok (none, none, [])
  | fuel + 1, twp :: rest, pending, has_open_parenthesis =>
    let position := twp.position
    match twp.token with
    | .DecimalInteger d =>
      match pending with
      | some _ =>
        .fail ⟨"Ring element cannot be followed by another ring element in expression",
          position, .Unspecified⟩
      | none =>
        match parse_int_ring_expression_from_tokens_rec fuel rest
            (some (.new_int_element d)) has_open_parenthesis with
        | .ok (some expr, pending2, rem) =>
          if pending2 = none then .ok (some expr, pending2, rem) else .panicked
        | .ok (none, pending2, rem) =>
          match pending2 with
          | some expr => .ok (some expr, none, rem)
          | none => .panicked
        | r => r
    | .PlusSign =>
      match pending with
      | none => .fail ⟨"Missing right hand side expression for operator", position, .Unspecified⟩
      | some rhs =>
        operatorArm .Addition position rhs
          (parse_int_ring_expression_from_tokens_rec fuel rest none has_open_parenthesis)
    | .MinusSign =>
      match pending with
      | none => .fail ⟨"Missing right hand side expression for operator", position, .Unspecified⟩
      | some rhs =>
        operatorArm .Subtraction position rhs
          (parse_int_ring_expression_from_tokens_rec fuel rest none has_open_parenthesis)
    | .MultiplicationSign =>
      match pending with
      | none => .fail ⟨"Missing right hand side expression for operator", position, .Unspecified⟩
      | some rhs =>
        operatorArm .Multiplication position rhs
          (parse_int_ring_expression_from_tokens_rec fuel rest none has_open_parenthesis)
    | .DivisionSign =>
      match pending with
      | none => .fail ⟨"Missing right hand side expression for operator", position, .Unspecified⟩
      | some rhs =>
        operatorArm .Division position rhs
          (parse_int_ring_expression_from_tokens_rec fuel rest none has_open_parenthesis)
    | .RightParenthesis =>
      match parse_int_ring_expression_from_tokens_rec fuel rest pending true with
      | .ok (some inner, _, rem) =>
        match rem with
        | twp2 :: rem2 =>
          if twp2.token = .LeftParenthesis then
            parse_int_ring_expression_from_tokens_rec fuel rem2
              (some (.Parentheses inner)) has_open_parenthesis
          else .fail ⟨"Missing left parenthesis for right parenthesis", position, .Unspecified⟩
        | [] => .fail ⟨"Missing left parenthesis for right parenthesis", position, .Unspecified⟩
      | .ok (none, _, _) => .fail ⟨"No expression", position, .NoExpression⟩
      | r => r
    | .LeftParenthesis =>
      if has_open_parenthesis then .ok (none, pending, twp :: rest)
      else .fail ⟨"Missing right parenthesis for left parenthesis", position, .Unspecified⟩
    | .Modulo => .fail ⟨"Unhandled token: mod", position, .Unspecified⟩

/-- `parse_int_ring_expression_from_tokens` from `src/expression/parser.rs`:
reverse the tokens, run the recursive parser, check exhaustion
(`debug_assert!`), and turn an empty result into the `NoExpression` error. -/
def parse_int_ring_expression_from_tokens (tokens : List TokenWithPos) :
    RRes ParseExpressionError ExpressionComponent :=
  let revTokens := tokens.reverse
  match parse_int_ring_expression_from_tokens_rec (revTokens.length + 1) revTokens none false with
  | .ok (result, _, rem) =>
    if rem = [] then
      match result with
      | some expr => .ok expr
      | none => .fail ⟨"No expression", 0, .NoExpression⟩
    else .panicked
  | .fail e => .fail e
  | .panicked => .panicked
  | .outOfFuel => .outOfFuel

/-- `parse_int_ring_expression` from `src/expression/parser.rs`: lex the whole
input eagerly (a `TokenError` converts to a `ParseExpressionError` of kind
`TokenParseError` keeping message and position), then parse the tokens. -/
def parse_int_ring_expression (s : List Char) :
    RRes ParseExpressionError ExpressionComponent :=
  match tokenize s with
  | .ok tokens => parse_int_ring_expression_from_tokens tokens
  | .fail e => .fail ⟨e.message, e.position, .TokenParseError⟩
  | .panicked => .panicked
  | .outOfFuel => .outOfFuel

/-! ## Theorems -/

/-- C1: the parser builds precedence-ordered trees via the single rotation
step: `"2 + 5 * 1"` parses to `Addition(RingElement(2),
Multiplication(RingElement(5), RingElement(1)))`; `"2 * 5 + 1"` parses to
`Addition(Multiplication(RingElement(2), RingElement(5)), RingElement(1))`;
`"2 + 5 * 1 * 3"` parses to `Addition(RingElement(2),
Multiplication(Multiplication(RingElement(5), RingElement(1)),
RingElement(3)))`. -/
theorem precedence_rotation_examples :
    parse_int_ring_expression ['2', ' ', '+', ' ', '5', ' ', '*', ' ', '1'] =
      .ok (.Addition (.RingElement ⟨2⟩)
        (.Multiplication (.RingElement ⟨5⟩) (.RingElement ⟨1⟩)))
    ∧ parse_int_ring_expression ['2', ' ', '*', ' ', '5', ' ', '+', ' ', '1'] =
      .ok (.Addition (.Multiplication (.RingElement ⟨2⟩) (.RingElement ⟨5⟩))
        (.RingElement ⟨1⟩))
    ∧ parse_int_ring_expression ['2', ' ', '+', ' ', '5', ' ', '*', ' ', '1', ' ', '*', ' ', '3'] =
      .ok (.Addition (.RingElement ⟨2⟩)
        (.Multiplication (.Multiplication (.RingElement ⟨5⟩) (.RingElement ⟨1⟩))
          (.RingElement ⟨3⟩))) := by
  refine ⟨?_, ?_, ?_⟩ <;> decide

/-- C7: the parser reports the documented positioned errors: `"2 + "` fails at
position 2 with the missing-right-hand-side message; `" + 5"` at position 1
with the missing-left-hand-side message; `"3 + 5)"` at position 5 with the
missing-left-parenthesis message; `"3 + (3 + 5"` at position 4 with the
missing-right-parenthesis message; `"  "` at position 0 with `"No expression"`
and kind `NoExpression`; `"1 2"` at position 0 with the adjacent-ring-element
message. -/
theorem positioned_error_examples :
    parse_int_ring_expression ['2', ' ', '+', ' '] =
      .fail ⟨"Missing right hand side expression for operator", 2, .Unspecified⟩
    ∧ parse_int_ring_expression [' ', '+', ' ', '5'] =
      .fail ⟨"Missing left hand side expression for operator", 1, .Unspecified⟩
    ∧ parse_int_ring_expression ['3', ' ', '+', ' ', '5', ')'] =
      .fail ⟨"Missing left parenthesis for right parenthesis", 5, .Unspecified⟩
    ∧ parse_int_ring_expression ['3', ' ', '+', ' ', '(', '3', ' ', '+', ' ', '5'] =
      .fail ⟨"Missing right parenthesis for left parenthesis", 4, .Unspecified⟩
    ∧ parse_int_ring_expression [' ', ' '] =
      .fail ⟨"No expression", 0, .NoExpression⟩
    ∧ parse_int_ring_expression ['1', ' ', '2'] =
      .fail ⟨"Ring element cannot be followed by another ring element in expression", 0,
        .Unspecified⟩ := by
  refine ⟨?_, ?_, ?_, ?_, ?_, ?_⟩ <;> decide

/-- C8: `"(-5)"` does not parse: the `-` is lexed as the binary `MinusSign`
and has no left-hand operand, so the parse fails with the
missing-left-hand-side error at the position of the `-` (position 1 in
`"(-5)"`, position 5 in `"2 * (-5)"`). -/
theorem unary_minus_rejected :
    parse_int_ring_expression ['(', '-', '5', ')'] =
      .fail ⟨"Missing left hand side expression for operator", 1, .Unspecified⟩
    ∧ parse_int_ring_expression ['2', ' ', '*', ' ', '(', '-', '5', ')'] =
      .fail ⟨"Missing left hand side expression for operator", 5, .Unspecified⟩ := by
  exact ⟨by decide, by decide⟩

/-- C4 (failing input): evaluating a tree containing a `UnaryMinus` node does
not return a value or an error — the source hits `panic!("implement")` and
aborts, contradicting the claimed totality of `evaluate` on all of
`ExpressionComponent<IntRing>`. -/
theorem evaluate_unary_minus_panics :
    evaluate (.UnaryMinus (.RingElement ⟨5⟩)) = .panicked := rfl

/-- The truncated remainder is zero exactly on divisibility. -/
theorem tmod_eq_zero_iff_dvd (a b : Int) : a.tmod b = 0 ↔ b ∣ a := by
  constructor
  · intro h
    have h2 := Int.tmod_add_tdiv a b
    rw [h, zero_add] at h2
    exact ⟨a.tdiv b, h2.symm⟩
  · intro h
    have h2 := Int.mul_tdiv_cancel' h
    have h3 := Int.tmod_add_tdiv a b
    omega

/-- An exact quotient of in-range operands is in range except for `i64::MIN / -1`. -/
theorem tdiv_in_range (a b : Int) (ha : i64InRange a)
    (hb0 : b ≠ 0) (hedge : ¬(a = i64Min ∧ b = -1)) (hdvd : b ∣ a) :
    i64InRange (a.tdiv b) := by
  have hq : b * a.tdiv b = a := Int.mul_tdiv_cancel' hdvd
  have hnat : b.natAbs * (a.tdiv b).natAbs = a.natAbs := by
    rw [← Int.natAbs_mul, hq]
  have hble : (a.tdiv b).natAbs ≤ b.natAbs * (a.tdiv b).natAbs :=
    Nat.le_mul_of_pos_left _ (by omega)
  simp only [i64InRange, i64Min, i64Max] at *
  by_contra hcon
  have hq263 : a.tdiv b = 2 ^ 63 := by omega
  rw [hq263] at hq hnat
  have hb1 : b.natAbs = 1 := by
    have : (2 ^ 63 : Int).natAbs = 2 ^ 63 := by norm_num
    rw [this] at hnat
    omega
  have : b = 1 ∨ b = -1 := by omega
  rcases this with h1 | h1 <;> rw [h1] at hq <;> omega

/-- C5: `IntRing::div(a, b)` returns `Ok(a / b)` exactly when `b` is nonzero,
`b` divides `a` evenly and the quotient is representable; it fails with
`"Result not in ring"` when the remainder is defined and nonzero; it fails
with `"Overflow"` when `b` is zero or in the `i64::MIN / -1` edge case; and
`div(6,2)=3`, `div(-6,2)=-3`, `div(6,-2)=-3`, `div(5,2)` fails with
`"Result not in ring"`, `div(x,0)` fails with `"Overflow"`. -/
theorem intring_div_contract :
    (∀ a b : Int, i64InRange a → i64InRange b →
      ((IntRing.div ⟨a⟩ ⟨b⟩ = .ok ⟨a.tdiv b⟩) ↔
        (b ≠ 0 ∧ b ∣ a ∧ i64InRange (a.tdiv b)))
      ∧ ((b ≠ 0 ∧ ¬(a = i64Min ∧ b = -1) ∧ a.tmod b ≠ 0) →
        IntRing.div ⟨a⟩ ⟨b⟩ = .error ⟨"Result not in ring"⟩)
      ∧ ((b = 0 ∨ (a = i64Min ∧ b = -1)) →
        IntRing.div ⟨a⟩ ⟨b⟩ = .error ⟨"Overflow"⟩))
    ∧ IntRing.div ⟨6⟩ ⟨2⟩ = .ok ⟨3⟩
    ∧ IntRing.div ⟨-6⟩ ⟨2⟩ = .ok ⟨-3⟩
    ∧ IntRing.div ⟨6⟩ ⟨-2⟩ = .ok ⟨-3⟩
    ∧ IntRing.div ⟨5⟩ ⟨2⟩ = .error ⟨"Result not in ring"⟩
    ∧ (∀ x : Int, IntRing.div ⟨x⟩ ⟨0⟩ = .error ⟨"Overflow"⟩) := by
  refine ⟨?_, by rfl, by rfl, by rfl, by rfl, ?_⟩
  · intro a b ha hb
    refine ⟨?_, ?_, ?_⟩
    · constructor
      · intro h
        by_cases hcond : b = 0 ∨ (a = i64Min ∧ b = -1)
        · simp [IntRing.div, checkedRem, checkedDiv, ringResult, if_pos hcond] at h
        · push_neg at hcond
          have hb0 : b ≠ 0 := hcond.1
          have hedge : ¬(a = i64Min ∧ b = -1) := by
            intro hx; exact absurd hx.2 (hcond.2 hx.1)
          have hcond' : ¬(b = 0 ∨ (a = i64Min ∧ b = -1)) := by tauto
          by_cases hmod : a.tmod b = 0
          · exact ⟨hb0, (tmod_eq_zero_iff_dvd a b).mp hmod,
              tdiv_in_range a b ha hb0 hedge ((tmod_eq_zero_iff_dvd a b).mp hmod)⟩
          · simp [IntRing.div, checkedRem, checkedDiv, ringResult, if_neg hcond', hmod] at h
      · rintro ⟨hb0, hdvd, hq⟩
        have hedge : ¬(a = i64Min ∧ b = -1) := by
          rintro ⟨h1, h2⟩
          rw [h1, h2] at hq
          have : (i64Min).tdiv (-1) = 2 ^ 63 := by decide
          rw [this] at hq
          simp only [i64InRange, i64Min, i64Max] at hq
          omega
        have hcond' : ¬(b = 0 ∨ (a = i64Min ∧ b = -1)) := by tauto
        have hmod : a.tmod b = 0 := (tmod_eq_zero_iff_dvd a b).mpr hdvd
        simp [IntRing.div, checkedRem, checkedDiv, ringResult, if_neg hcond', hmod]
    · rintro ⟨hb0, hedge, hmod⟩
      have hcond' : ¬(b = 0 ∨ (a = i64Min ∧ b = -1)) := by tauto
      simp [IntRing.div, checkedRem, if_neg hcond', hmod]
    · intro hcond
      simp [IntRing.div, checkedRem, checkedDiv, ringResult, if_pos hcond]
  · intro x
    have hcond : (0 : Int) = 0 ∨ (x = i64Min ∧ (0:Int) = -1) := Or.inl rfl
    simp [IntRing.div, checkedRem, checkedDiv, ringResult, if_pos hcond]

/-- C6: `IntRing::add`, `sub` and `mul` are overflow-checked exact 64-bit
arithmetic: for in-range operands each returns `Ok` of the exact result
whenever it is representable and otherwise fails with `"Overflow"`; in
particular `add(i64::MAX, 1)`, `sub(i64::MIN, 1)` and `mul(i64::MAX, 2)`
fail with `"Overflow"`. -/
theorem intring_checked_arithmetic :
    (∀ a b : Int, i64InRange a → i64InRange b →
      ((i64InRange (a + b) → IntRing.add ⟨a⟩ ⟨b⟩ = .ok ⟨a + b⟩)
        ∧ (¬i64InRange (a + b) → IntRing.add ⟨a⟩ ⟨b⟩ = .error ⟨"Overflow"⟩))
      ∧ ((i64InRange (a - b) → IntRing.sub ⟨a⟩ ⟨b⟩ = .ok ⟨a - b⟩)
        ∧ (¬i64InRange (a - b) → IntRing.sub ⟨a⟩ ⟨b⟩ = .error ⟨"Overflow"⟩))
      ∧ ((i64InRange (a * b) → IntRing.mul ⟨a⟩ ⟨b⟩ = .ok ⟨a * b⟩)
        ∧ (¬i64InRange (a * b) → IntRing.mul ⟨a⟩ ⟨b⟩ = .error ⟨"Overflow"⟩)))
    ∧ IntRing.add ⟨i64Max⟩ ⟨1⟩ = .error ⟨"Overflow"⟩
    ∧ IntRing.sub ⟨i64Min⟩ ⟨1⟩ = .error ⟨"Overflow"⟩
    ∧ IntRing.mul ⟨i64Max⟩ ⟨2⟩ = .error ⟨"Overflow"⟩ := by
  refine ⟨?_, by rfl, by rfl, by rfl⟩
  intro a b _ _
  refine ⟨⟨?_, ?_⟩, ⟨?_, ?_⟩, ⟨?_, ?_⟩⟩ <;> intro h <;>
    simp [IntRing.add, IntRing.sub, IntRing.mul, checkedAdd, checkedSub, checkedMul,
      ringResult, h]

/-- Witness for C5 at `a = 6`, `b = 2`. -/
theorem intring_div_contract_witness :
    i64InRange 6 ∧ i64InRange 2 ∧
      (((IntRing.div ⟨6⟩ ⟨2⟩ = .ok ⟨Int.tdiv 6 2⟩) ↔
        ((2 : Int) ≠ 0 ∧ (2 : Int) ∣ 6 ∧ i64InRange (Int.tdiv 6 2)))
      ∧ (((2 : Int) ≠ 0 ∧ ¬((6 : Int) = i64Min ∧ (2 : Int) = -1) ∧ Int.tmod 6 2 ≠ 0) →
        IntRing.div ⟨6⟩ ⟨2⟩ = .error ⟨"Result not in ring"⟩)
      ∧ (((2 : Int) = 0 ∨ ((6 : Int) = i64Min ∧ (2 : Int) = -1)) →
        IntRing.div ⟨6⟩ ⟨2⟩ = .error ⟨"Overflow"⟩)) :=
  ⟨by decide, by decide, intring_div_contract.1 6 2 (by decide) (by decide)⟩

/-- Witness for C6 at `a = 1`, `b = 2`. -/
theorem intring_checked_arithmetic_witness :
    i64InRange 1 ∧ i64InRange 2 ∧
      (((i64InRange ((1 : Int) + 2) → IntRing.add ⟨1⟩ ⟨2⟩ = .ok ⟨(1 : Int) + 2⟩)
        ∧ (¬i64InRange ((1 : Int) + 2) → IntRing.add ⟨1⟩ ⟨2⟩ = .error ⟨"Overflow"⟩))
      ∧ ((i64InRange ((1 : Int) - 2) → IntRing.sub ⟨1⟩ ⟨2⟩ = .ok ⟨(1 : Int) - 2⟩)
        ∧ (¬i64InRange ((1 : Int) - 2) → IntRing.sub ⟨1⟩ ⟨2⟩ = .error ⟨"Overflow"⟩))
      ∧ ((i64InRange ((1 : Int) * 2) → IntRing.mul ⟨1⟩ ⟨2⟩ = .ok ⟨(1 : Int) * 2⟩)
        ∧ (¬i64InRange ((1 : Int) * 2) → IntRing.mul ⟨1⟩ ⟨2⟩ = .error ⟨"Overflow"⟩))) :=
  ⟨by decide, by decide, intring_checked_arithmetic.1 1 2 (by decide) (by decide)⟩

/-- The ASCII digit character for a digit value. -/
def digitChar (k : Nat) : Char := Char.ofNat (48 + k)

/-- The decimal text of a natural number, most significant digit first. -/
def natDigits (n : Nat) : List Char :=
  if _ : n < 10 then [digitChar n]
  else natDigits (n / 10) ++ [digitChar (n % 10)]
termination_by n
decreasing_by exact Nat.div_lt_self (by omega) (by omega)

/-- The decimal text of a signed 64-bit integer. -/
def intDecimalChars (n : Int) : List Char :=
  if n < 0 then '-' :: natDigits n.natAbs else natDigits n.toNat

theorem natDigits_of_lt {n : Nat} (h : n < 10) : natDigits n = [digitChar n] := by
  rw [natDigits]
  simp [h]

theorem natDigits_of_ge {n : Nat} (h : ¬n < 10) :
    natDigits n = natDigits (n / 10) ++ [digitChar (n % 10)] := by
  rw [natDigits]
  simp [h]

theorem digitChar_toNat {k : Nat} (h : k < 10) : (digitChar k).toNat = 48 + k := by
  interval_cases k <;> rfl

theorem rustToDigit_digitChar {k : Nat} (h : k < 10) : rustToDigit (digitChar k) = some k := by
  interval_cases k <;> rfl

theorem natDigits_mem_toNat {n : Nat} {c : Char} (h : c ∈ natDigits n) :
    48 ≤ c.toNat ∧ c.toNat ≤ 57 := by
  induction n using Nat.strong_induction_on with
  | _ n ih =>
    by_cases h10 : n < 10
    · rw [natDigits_of_lt h10] at h
      simp at h
      rw [h, digitChar_toNat h10]
      omega
    · rw [natDigits_of_ge h10] at h
      rcases List.mem_append.mp h with h1 | h1
      · exact ih (n / 10) (Nat.div_lt_self (by omega) (by omega)) h1
      · simp at h1
        rw [h1, digitChar_toNat (Nat.mod_lt n (by omega))]
        omega

theorem natDigits_ne_nil (n : Nat) : natDigits n ≠ [] := by
  by_cases h10 : n < 10
  · rw [natDigits_of_lt h10]
    simp
  · rw [natDigits_of_ge h10]
    simp

theorem parseDigitsAcc_append (acc : Int) (l1 l2 : List Char) :
    parseDigitsAcc true acc (l1 ++ l2) =
      (parseDigitsAcc true acc l1).bind fun acc2 => parseDigitsAcc true acc2 l2 := by
  induction l1 generalizing acc with
  | nil => simp [parseDigitsAcc]
  | cons c cs ih =>
    simp only [List.cons_append, parseDigitsAcc, cond_true]
    cases hd : rustToDigit c with
    | none => simp
    | some d =>
      simp only [Option.some_bind]
      cases hm : checkedMul acc 10 with
      | none => simp
      | some m =>
        simp only [Option.some_bind]
        cases hadd : checkedAdd m (d : Int) with
        | none => simp
        | some acc2 =>
          simp only [Option.some_bind]
          exact ih acc2

theorem parseDigitsAcc_single {a : Int} {k : Nat} (hk : k < 10) (ha : 0 ≤ a)
    (hb : a * 10 + k ≤ i64Max) :
    parseDigitsAcc true a [digitChar k] = some (a * 10 + k) := by
  have hd := rustToDigit_digitChar hk
  have hmul : checkedMul a 10 = some (a * 10) := by
    rw [checkedMul, if_pos]
    refine ⟨by simp only [i64Min]; omega, ?_⟩
    simp only [i64Max] at hb ⊢
    omega
  have hadd : checkedAdd (a * 10) k = some (a * 10 + k) := by
    rw [checkedAdd, if_pos]
    refine ⟨by simp only [i64Min]; omega, ?_⟩
    simp only [i64Max] at hb ⊢
    omega
  simp [parseDigitsAcc, hd, hmul, hadd]

theorem natDigits_parseDigitsAcc (n : Nat) : ∀ acc : Int, 0 ≤ acc →
    acc * 10 ^ (natDigits n).length + n ≤ i64Max →
    parseDigitsAcc true acc (natDigits n) =
      some (acc * 10 ^ (natDigits n).length + n) := by
  induction n using Nat.strong_induction_on with
  | _ n ih =>
    intro acc hacc hbound
    by_cases h10 : n < 10
    · rw [natDigits_of_lt h10] at hbound ⊢
      simp only [List.length_cons, List.length_nil, pow_one] at hbound ⊢
      exact parseDigitsAcc_single h10 hacc hbound
    · have hlen : (natDigits n).length = (natDigits (n / 10)).length + 1 := by
        rw [natDigits_of_ge h10]
        simp
      rw [natDigits_of_ge h10, parseDigitsAcc_append]
      rw [hlen, pow_succ] at hbound
      rw [show (natDigits (n / 10) ++ [digitChar (n % 10)]).length =
        (natDigits (n / 10)).length + 1 from by simp, pow_succ]
      have hP1 : (1 : Int) ≤ 10 ^ (natDigits (n / 10)).length := one_le_pow₀ (by omega)
      have hA : 0 ≤ acc * 10 ^ (natDigits (n / 10)).length := mul_nonneg hacc (by omega)
      have hn : (n : Int) = 10 * ↑(n / 10) + ↑(n % 10) := by
        have := Nat.div_add_mod n 10
        omega
      have hshape : acc * (10 ^ (natDigits (n / 10)).length * 10) =
          acc * 10 ^ (natDigits (n / 10)).length * 10 := by ring
      rw [hshape] at hbound ⊢
      have hbound' : acc * 10 ^ (natDigits (n / 10)).length + ↑(n / 10) ≤ i64Max := by
        simp only [i64Max] at hbound ⊢
        omega
      have hrec := ih (n / 10) (Nat.div_lt_self (by omega) (by omega)) acc hacc hbound'
      rw [hrec]
      simp only [Option.some_bind]
      have heq : acc * 10 ^ (natDigits (n / 10)).length * 10 + ↑n =
          (acc * 10 ^ (natDigits (n / 10)).length + ↑(n / 10)) * 10 + ↑(n % 10) := by
        rw [hn]
        ring
      rw [heq]
      refine parseDigitsAcc_single (Nat.mod_lt n (by omega)) (by omega) ?_
      rw [← heq]
      exact hbound

theorem rustParseI64_natDigits (n : Nat) (hn : (n : Int) ≤ i64Max) :
    rustParseI64 (natDigits n) = some (n : Int) := by
  obtain ⟨c, cs, hcons⟩ : ∃ c cs, natDigits n = c :: cs := by
    cases h : natDigits n with
    | nil => exact absurd h (natDigits_ne_nil n)
    | cons c cs => exact ⟨c, cs, rfl⟩
  have hc : 48 ≤ c.toNat ∧ c.toNat ≤ 57 :=
    natDigits_mem_toNat (hcons ▸ List.mem_cons_self c cs)
  have hplus : ¬c = '+' := by
    intro h
    rw [h] at hc
    exact absurd hc.1 (by decide)
  have hminus : ¬c = '-' := by
    intro h
    rw [h] at hc
    exact absurd hc.1 (by decide)
  rw [hcons, rustParseI64, if_neg hplus, if_neg hminus, ← hcons]
  have h0 : (0 : Int) * 10 ^ (natDigits n).length + n ≤ i64Max := by
    simpa using hn
  rw [natDigits_parseDigitsAcc n 0 le_rfl h0]
  simp

/-- ASCII digits are not operator characters, not `m`, numeric, and not
whitespace. -/
theorem digit_char_classes {c : Char} (h1 : 48 ≤ c.toNat) (h2 : c.toNat ≤ 57) :
    ¬c = '(' ∧ ¬c = ')' ∧ ¬c = '+' ∧ ¬c = '-' ∧ ¬c = '*' ∧ ¬c = '/' ∧ ¬c = 'm' ∧
    rustIsNumeric c = true ∧ rustIsWhitespace c = false := by
  refine ⟨?_, ?_, ?_, ?_, ?_, ?_, ?_, ?_, ?_⟩
  · intro h; rw [h] at h1; exact absurd h1 (by decide)
  · intro h; rw [h] at h1; exact absurd h1 (by decide)
  · intro h; rw [h] at h1; exact absurd h1 (by decide)
  · intro h; rw [h] at h1; exact absurd h1 (by decide)
  · intro h; rw [h] at h1; exact absurd h1 (by decide)
  · intro h; rw [h] at h1; exact absurd h1 (by decide)
  · intro h; rw [h] at h2; exact absurd h2 (by decide)
  · rw [rustIsNumeric, decide_eq_true_eq]
    exact Or.inl ⟨h1, h2⟩
  · rw [rustIsWhitespace, decide_eq_false_iff_not]
    omega

/-- The first element of the list, if any, fails the predicate. -/
def headFails {α : Type} (p : α → Bool) : List α → Prop
  | [] => True
  | q :: _ => p q = false

theorem takeWhile_append_all {α : Type} {p : α → Bool} {l r : List α}
    (hl : ∀ q ∈ l, p q = true) (hr : headFails p r) :
    (l ++ r).takeWhile p = l ∧ (l ++ r).dropWhile p = r := by
  induction l with
  | nil =>
    cases r with
    | nil => exact ⟨rfl, rfl⟩
    | cons q rest =>
      simp only [headFails] at hr
      simp [List.takeWhile, List.dropWhile, hr]
  | cons x xs ih =>
    have hx : p x = true := hl x (List.mem_cons_self x xs)
    have hxs : ∀ q ∈ xs, p q = true := fun q hq => hl q (List.mem_cons_of_mem x hq)
    obtain ⟨ht, hd⟩ := ih hxs
    simp [List.takeWhile, List.dropWhile, hx, ht, hd]

theorem enumerate_append (k : Nat) (l1 l2 : List Char) :
    enumerate k (l1 ++ l2) = enumerate k l1 ++ enumerate (k + l1.length) l2 := by
  induction l1 generalizing k with
  | nil => simp [enumerate]
  | cons c cs ih =>
    simp only [List.cons_append, enumerate, List.length_cons, List.append_eq]
    rw [ih (k + 1), show k + 1 + cs.length = k + (cs.length + 1) from by omega]

theorem enumerate_map_snd (k : Nat) (l : List Char) :
    (enumerate k l).map Prod.snd = l := by
  induction l generalizing k with
  | nil => rfl
  | cons c cs ih => simp [enumerate, ih]

theorem enumerate_length (k : Nat) (l : List Char) :
    (enumerate k l).length = l.length := by
  induction l generalizing k with
  | nil => rfl
  | cons c cs ih => simp [enumerate, ih]

theorem enumerate_mem_snd {k : Nat} {l : List Char} {q : Nat × Char}
    (h : q ∈ enumerate k l) : q.2 ∈ l := by
  induction l generalizing k with
  | nil => cases h
  | cons c cs ih =>
    rcases h with _ | h
    · exact List.mem_cons_self c cs
    · exact List.mem_cons_of_mem c (ih (by assumption))

/-- `read_next_token` on a maximal run of numeric characters followed by a
non-numeric character (or the end of input): the run is parsed as an `i64`. -/
theorem read_next_token_run {k : Nat} {c : Char} {pcs rest : List (Nat × Char)}
    (h1 : 48 ≤ c.toNat) (h2 : c.toNat ≤ 57)
    (hpcs : ∀ q ∈ pcs, rustIsNumeric q.2 = true)
    (hrest : headFails (fun q => rustIsNumeric q.2) rest) :
    read_next_token (k, c) (pcs ++ rest) =
      match rustParseI64 (c :: pcs.map Prod.snd) with
      | some d => .ok (.DecimalInteger d, rest)
      | none => .error ⟨"Decimal number too big", k⟩ := by
  obtain ⟨hp1, hp2, hp3, hp4, hp5, hp6, hp7, hnum, _⟩ := digit_char_classes h1 h2
  have htake : ((k, c) :: (pcs ++ rest)).takeWhile (fun q => rustIsNumeric q.2) =
      (k, c) :: pcs ∧
      ((k, c) :: (pcs ++ rest)).dropWhile (fun q => rustIsNumeric q.2) = rest := by
    have := @takeWhile_append_all (Nat × Char) (fun q => rustIsNumeric q.2)
      ((k, c) :: pcs) rest ?_ hrest
    · simpa using this
    · intro q hq
      rcases hq with _ | hq
      · exact hnum
      · exact hpcs q (by assumption)
  rw [read_next_token]
  simp only [if_neg hp1, if_neg hp2, if_neg hp3, if_neg hp4, if_neg hp5, if_neg hp6,
    if_neg hp7, if_pos hnum]
  rw [htake.1, htake.2]
  simp

theorem tokenizeLoop_nil (fuel : Nat) : tokenizeLoop (fuel + 1) [] = .ok [] := rfl

/-- One iteration of the token loop on a non-whitespace head that reads a
token. -/
theorem tokenizeLoop_step {fuel : Nat} {k : Nat} {c : Char} {rest rem : List (Nat × Char)}
    {t : IntRingToken} (hws : rustIsWhitespace c = false)
    (hread : read_next_token (k, c) rest = .ok (t, rem)) :
    tokenizeLoop (fuel + 1) ((k, c) :: rest) =
      match tokenizeLoop fuel rem with
      | .ok ts => .ok (⟨t, k⟩ :: ts)
      | r => r := by
  rw [tokenizeLoop]
  rw [List.dropWhile_cons_of_neg (by simp [hws])]
  change (match read_next_token (k, c) rest with
    | .error e => RRes.fail e
    | .ok (t, rem) =>
      match tokenizeLoop fuel rem with
      | .ok ts => .ok ((⟨t, k⟩ : TokenWithPos) :: ts)
      | r => r) = _
  rw [hread]

/-- One iteration of the token loop on a whitespace head skips it. -/
theorem tokenizeLoop_ws {fuel : Nat} {k : Nat} {c : Char} {rest : List (Nat × Char)}
    (hws : rustIsWhitespace c = true) :
    tokenizeLoop (fuel + 1) ((k, c) :: rest) = tokenizeLoop (fuel + 1) rest := by
  conv_lhs => rw [tokenizeLoop]
  conv_rhs => rw [tokenizeLoop]
  rw [List.dropWhile_cons_of_pos (by simp [hws])]

/-- Lexing the decimal text of an in-range natural number yields exactly one
`DecimalInteger` token at position 0. -/
theorem tokenize_natDigits (n : Nat) (hn : (n : Int) ≤ i64Max) :
    tokenize (natDigits n) = .ok [⟨.DecimalInteger n, 0⟩] := by
  obtain ⟨c, cs, hcons⟩ : ∃ c cs, natDigits n = c :: cs := by
    cases h : natDigits n with
    | nil => exact absurd h (natDigits_ne_nil n)
    | cons c cs => exact ⟨c, cs, rfl⟩
  have hc : 48 ≤ c.toNat ∧ c.toNat ≤ 57 :=
    natDigits_mem_toNat (hcons ▸ List.mem_cons_self c cs)
  have hread : read_next_token (0, c) (enumerate 1 cs) =
      .ok (.DecimalInteger (n : Int), []) := by
    have := @read_next_token_run 0 c (enumerate 1 cs) []
      hc.1 hc.2 ?_ trivial
    · rw [List.append_nil] at this
      rw [this, enumerate_map_snd, ← hcons, rustParseI64_natDigits n hn]
    · intro q hq
      have hq2 : q.2 ∈ cs := enumerate_mem_snd hq
      have := natDigits_mem_toNat (hcons ▸ List.mem_cons_of_mem c hq2)
      exact (digit_char_classes this.1 this.2).2.2.2.2.2.2.2.1
  have hws : rustIsWhitespace c = false := (digit_char_classes hc.1 hc.2).2.2.2.2.2.2.2.2
  rw [tokenize, hcons]
  simp only [enumerate, List.length_cons]
  rw [tokenizeLoop_step hws hread, tokenizeLoop_nil]

/-- C3 (amended): round trip for nonnegative values. -/
theorem parse_evaluate_roundtrip (n : Int) (h0 : 0 ≤ n) (hmax : n ≤ i64Max) :
    parse_int_ring_expression (intDecimalChars n) = .ok (.RingElement ⟨n⟩)
    ∧ evaluate (.RingElement ⟨n⟩) = .ok ⟨n⟩ := by
  have hneg : ¬n < 0 := by omega
  rw [intDecimalChars, if_neg hneg]
  have htok := tokenize_natDigits n.toNat (by rw [Int.toNat_of_nonneg h0]; exact hmax)
  rw [Int.toNat_of_nonneg h0] at htok
  rw [parse_int_ring_expression, htok]
  exact ⟨rfl, rfl⟩

/-- C3 (counterexample): the decimal text of `-1` does not even parse — the
minus sign is lexed as the binary operator and has no left-hand operand. -/
theorem parse_negative_decimal_fails :
    parse_int_ring_expression (intDecimalChars (-1)) =
      .fail ⟨"Missing left hand side expression for operator", 0, .Unspecified⟩ := by
  have h1 : (-1 : Int).natAbs = 1 := rfl
  rw [intDecimalChars, if_pos (by norm_num), h1, natDigits_of_lt (by norm_num)]
  decide

/-- Token-loop results are fuel-monotone: once enough fuel is supplied the
result no longer depends on the exact amount. -/
theorem tokenizeLoop_mono : ∀ (fuel fuel' : Nat) (input : List (Nat × Char)),
    fuel ≤ fuel' → tokenizeLoop fuel input ≠ .outOfFuel →
    tokenizeLoop fuel' input = tokenizeLoop fuel input := by
  intro fuel
  induction fuel with
  | zero =>
    intro fuel' input h hne
    exact absurd rfl hne
  | succ f ih =>
    intro fuel' input h hne
    obtain ⟨f', rfl⟩ : ∃ f', fuel' = f' + 1 := ⟨fuel' - 1, by omega⟩
    cases hdrop : input.dropWhile (fun q => rustIsWhitespace q.2) with
    | nil => simp only [tokenizeLoop, hdrop]
    | cons pc rest =>
      cases hread : read_next_token pc rest with
      | error e => simp only [tokenizeLoop, hdrop, hread]
      | ok tr =>
        obtain ⟨t, rem⟩ := tr
        have hne' : tokenizeLoop f rem ≠ .outOfFuel := by
          intro hcon
          apply hne
          simp only [tokenizeLoop, hdrop, hread, hcon]
        simp only [tokenizeLoop, hdrop, hread]
        rw [ih f' rem (by omega) hne']

/-- One token-loop iteration consuming the decimal text of `n`. -/
theorem tokenizeLoop_digits {fuel k : Nat} {n : Nat} {rest : List (Nat × Char)}
    (hn : (n : Int) ≤ i64Max) (hrest : headFails (fun q => rustIsNumeric q.2) rest) :
    tokenizeLoop (fuel + 1) (enumerate k (natDigits n) ++ rest) =
      match tokenizeLoop fuel rest with
      | .ok ts => .ok (⟨.DecimalInteger (n : Int), k⟩ :: ts)
      | r => r := by
  obtain ⟨c, cs, hcons⟩ : ∃ c cs, natDigits n = c :: cs := by
    cases h : natDigits n with
    | nil => exact absurd h (natDigits_ne_nil n)
    | cons c cs => exact ⟨c, cs, rfl⟩
  have hc : 48 ≤ c.toNat ∧ c.toNat ≤ 57 :=
    natDigits_mem_toNat (hcons ▸ List.mem_cons_self c cs)
  have hws : rustIsWhitespace c = false := (digit_char_classes hc.1 hc.2).2.2.2.2.2.2.2.2
  have hread : read_next_token (k, c) (enumerate (k + 1) cs ++ rest) =
      .ok (.DecimalInteger (n : Int), rest) := by
    have hrun := @read_next_token_run k c (enumerate (k + 1) cs) rest
      hc.1 hc.2 ?_ hrest
    · rw [hrun, enumerate_map_snd, ← hcons, rustParseI64_natDigits n hn]
    · intro q hq
      have hq2 : q.2 ∈ cs := enumerate_mem_snd hq
      have hmem := natDigits_mem_toNat (hcons ▸ List.mem_cons_of_mem c hq2)
      exact (digit_char_classes hmem.1 hmem.2).2.2.2.2.2.2.2.1
  rw [hcons]
  simp only [enumerate, List.cons_append]
  rw [tokenizeLoop_step hws hread]

/-- The four binary operators, used to state one property uniformly. -/
inductive BinOp where
  | plus
  | minus
  | times
  | divide
deriving DecidableEq

/-- The source character of a binary operator. -/
def opChar : BinOp → Char
  | .plus => '+'
  | .minus => '-'
  | .times => '*'
  | .divide => '/'

/-- The token of a binary operator. -/
def opToken : BinOp → IntRingToken
  | .plus => .PlusSign
  | .minus => .MinusSign
  | .times => .MultiplicationSign
  | .divide => .DivisionSign

/-- The expression node of a binary operator. -/
def opNode : BinOp → ExpressionComponent → ExpressionComponent → ExpressionComponent
  | .plus => .Addition
  | .minus => .Subtraction
  | .times => .Multiplication
  | .divide => .Division

theorem read_next_token_opChar (op : BinOp) (k : Nat) (rest : List (Nat × Char)) :
    read_next_token (k, opChar op) rest = .ok (opToken op, rest) := by
  cases op <;> rfl

theorem opChar_not_ws (op : BinOp) : rustIsWhitespace (opChar op) = false := by
  cases op <;> rfl

theorem opChar_not_numeric (op : BinOp) : rustIsNumeric (opChar op) = false := by
  cases op <;> rfl

/-- The source text `"a OP b OP c"` with single spaces. -/
def assocChars (op : BinOp) (a b c : Nat) : List Char :=
  natDigits a ++ ' ' :: opChar op :: ' ' ::
    (natDigits b ++ ' ' :: opChar op :: ' ' :: natDigits c)

/-- The source text `"(a OP b) OP c"` with single spaces. -/
def assocParenChars (op : BinOp) (a b c : Nat) : List Char :=
  '(' :: (natDigits a ++ ' ' :: opChar op :: ' ' ::
    (natDigits b ++ ')' :: ' ' :: opChar op :: ' ' :: natDigits c))

theorem ws_space : rustIsWhitespace ' ' = true := rfl

theorem headFails_nil {α : Type} {p : α → Bool} : headFails p [] := trivial

theorem read_next_token_lparen (k : Nat) (rest : List (Nat × Char)) :
    read_next_token (k, '(') rest = .ok (.LeftParenthesis, rest) := rfl

theorem read_next_token_rparen (k : Nat) (rest : List (Nat × Char)) :
    read_next_token (k, ')') rest = .ok (.RightParenthesis, rest) := rfl

theorem tokenizeLoop_assocChars (op : BinOp) (a b c : Nat) (f : Nat)
    (ha : (a : Int) ≤ i64Max) (hb : (b : Int) ≤ i64Max) (hc : (c : Int) ≤ i64Max) :
    tokenizeLoop (f + 1 + 1 + 1 + 1 + 1 + 1) (enumerate 0 (assocChars op a b c)) =
      .ok [⟨.DecimalInteger (a : Int), 0⟩,
        ⟨opToken op, (natDigits a).length + 1⟩,
        ⟨.DecimalInteger (b : Int), (natDigits a).length + 1 + 1 + 1⟩,
        ⟨opToken op, (natDigits a).length + 1 + 1 + 1 + (natDigits b).length + 1⟩,
        ⟨.DecimalInteger (c : Int),
          (natDigits a).length + 1 + 1 + 1 + (natDigits b).length + 1 + 1 + 1⟩] := by
  rw [assocChars, enumerate_append, Nat.zero_add]
  rw [tokenizeLoop_digits ha (by rfl)]
  simp only [enumerate]
  rw [tokenizeLoop_ws ws_space]
  rw [tokenizeLoop_step (opChar_not_ws op) (read_next_token_opChar op _ _)]
  rw [tokenizeLoop_ws ws_space]
  rw [enumerate_append]
  rw [tokenizeLoop_digits hb (by rfl)]
  simp only [enumerate]
  rw [tokenizeLoop_ws ws_space]
  rw [tokenizeLoop_step (opChar_not_ws op) (read_next_token_opChar op _ _)]
  rw [tokenizeLoop_ws ws_space]
  rw [← List.append_nil (enumerate _ (natDigits c))]
  rw [tokenizeLoop_digits hc headFails_nil]
  rw [tokenizeLoop_nil]

theorem lparen_not_ws : rustIsWhitespace '(' = false := rfl

theorem rparen_not_ws : rustIsWhitespace ')' = false := rfl

theorem tokenizeLoop_assocParenChars (op : BinOp) (a b c : Nat) (f : Nat)
    (ha : (a : Int) ≤ i64Max) (hb : (b : Int) ≤ i64Max) (hc : (c : Int) ≤ i64Max) :
    tokenizeLoop (f + 1 + 1 + 1 + 1 + 1 + 1 + 1 + 1)
        (enumerate 0 (assocParenChars op a b c)) =
      .ok [⟨.LeftParenthesis, 0⟩,
        ⟨.DecimalInteger (a : Int), 1⟩,
        ⟨opToken op, 1 + (natDigits a).length + 1⟩,
        ⟨.DecimalInteger (b : Int), 1 + (natDigits a).length + 1 + 1 + 1⟩,
        ⟨.RightParenthesis, 1 + (natDigits a).length + 1 + 1 + 1 + (natDigits b).length⟩,
        ⟨opToken op, 1 + (natDigits a).length + 1 + 1 + 1 + (natDigits b).length + 1 + 1⟩,
        ⟨.DecimalInteger (c : Int),
          1 + (natDigits a).length + 1 + 1 + 1 + (natDigits b).length + 1 + 1 + 1 + 1⟩] := by
  rw [assocParenChars]
  simp only [enumerate]
  rw [tokenizeLoop_step lparen_not_ws (read_next_token_lparen _ _)]
  rw [enumerate_append]
  rw [tokenizeLoop_digits ha (by rfl)]
  simp only [enumerate]
  rw [tokenizeLoop_ws ws_space]
  rw [tokenizeLoop_step (opChar_not_ws op) (read_next_token_opChar op _ _)]
  rw [tokenizeLoop_ws ws_space]
  rw [enumerate_append]
  rw [tokenizeLoop_digits hb (by rfl)]
  simp only [enumerate]
  rw [tokenizeLoop_step rparen_not_ws (read_next_token_rparen _ _)]
  rw [tokenizeLoop_ws ws_space]
  rw [tokenizeLoop_step (opChar_not_ws op) (read_next_token_opChar op _ _)]
  rw [tokenizeLoop_ws ws_space]
  rw [← List.append_nil (enumerate _ (natDigits c))]
  rw [tokenizeLoop_digits hc headFails_nil]
  rw [tokenizeLoop_nil]

theorem parse_tokens_assoc (op : BinOp) (a b c : Int) (p1 p2 p3 p4 p5 : Nat) :
    parse_int_ring_expression_from_tokens
        [⟨.DecimalInteger a, p1⟩, ⟨opToken op, p2⟩, ⟨.DecimalInteger b, p3⟩,
          ⟨opToken op, p4⟩, ⟨.DecimalInteger c, p5⟩] =
      .ok (opNode op (opNode op (.RingElement ⟨a⟩) (.RingElement ⟨b⟩))
        (.RingElement ⟨c⟩)) := by
  cases op <;> rfl

theorem parse_tokens_assocParen (op : BinOp) (a b c : Int) (p1 p2 p3 p4 p5 p6 p7 : Nat) :
    parse_int_ring_expression_from_tokens
        [⟨.LeftParenthesis, p1⟩, ⟨.DecimalInteger a, p2⟩, ⟨opToken op, p3⟩,
          ⟨.DecimalInteger b, p4⟩, ⟨.RightParenthesis, p5⟩, ⟨opToken op, p6⟩,
          ⟨.DecimalInteger c, p7⟩] =
      .ok (opNode op (.Parentheses (opNode op (.RingElement ⟨a⟩) (.RingElement ⟨b⟩)))
        (.RingElement ⟨c⟩)) := by
  cases op <;> rfl

/-- C2: equal-precedence operators are left-associative. -/
theorem left_associativity (op : BinOp) (a b c : Nat)
    (ha : (a : Int) ≤ i64Max) (hb : (b : Int) ≤ i64Max) (hc : (c : Int) ≤ i64Max) :
    parse_int_ring_expression (assocChars op a b c) =
      .ok (opNode op (opNode op (.RingElement ⟨(a : Int)⟩) (.RingElement ⟨(b : Int)⟩))
        (.RingElement ⟨(c : Int)⟩))
    ∧ parse_int_ring_expression (assocParenChars op a b c) =
      .ok (opNode op (.Parentheses (opNode op (.RingElement ⟨(a : Int)⟩)
        (.RingElement ⟨(b : Int)⟩))) (.RingElement ⟨(c : Int)⟩))
    ∧ evaluate (opNode op (opNode op (.RingElement ⟨(a : Int)⟩) (.RingElement ⟨(b : Int)⟩))
        (.RingElement ⟨(c : Int)⟩)) =
      evaluate (opNode op (.Parentheses (opNode op (.RingElement ⟨(a : Int)⟩)
        (.RingElement ⟨(b : Int)⟩))) (.RingElement ⟨(c : Int)⟩)) := by
  refine ⟨?_, ?_, ?_⟩
  · have h5 : 5 ≤ (assocChars op a b c).length := by
      simp only [assocChars, List.length_append, List.length_cons]
      omega
    rw [parse_int_ring_expression, tokenize,
      show (assocChars op a b c).length + 1 =
        (assocChars op a b c).length - 5 + 1 + 1 + 1 + 1 + 1 + 1 from by omega,
      tokenizeLoop_assocChars op a b c _ ha hb hc]
    exact parse_tokens_assoc op a b c _ _ _ _ _
  · have h7 : 7 ≤ (assocParenChars op a b c).length := by
      simp only [assocParenChars, List.length_append, List.length_cons]
      omega
    rw [parse_int_ring_expression, tokenize,
      show (assocParenChars op a b c).length + 1 =
        (assocParenChars op a b c).length - 7 + 1 + 1 + 1 + 1 + 1 + 1 + 1 + 1 from by omega,
      tokenizeLoop_assocParenChars op a b c _ ha hb hc]
    exact parse_tokens_assocParen op a b c _ _ _ _ _ _ _
  · cases op <;> rfl

/-- Witness for C2 at `op = +`, `a = 1`, `b = 2`, `c = 3`. -/
theorem left_associativity_witness :
    ((1 : Nat) : Int) ≤ i64Max ∧ ((2 : Nat) : Int) ≤ i64Max ∧ ((3 : Nat) : Int) ≤ i64Max ∧
      (parse_int_ring_expression (assocChars .plus 1 2 3) =
        .ok (opNode .plus (opNode .plus (.RingElement ⟨((1 : Nat) : Int)⟩)
          (.RingElement ⟨((2 : Nat) : Int)⟩)) (.RingElement ⟨((3 : Nat) : Int)⟩))
      ∧ parse_int_ring_expression (assocParenChars .plus 1 2 3) =
        .ok (opNode .plus (.Parentheses (opNode .plus (.RingElement ⟨((1 : Nat) : Int)⟩)
          (.RingElement ⟨((2 : Nat) : Int)⟩))) (.RingElement ⟨((3 : Nat) : Int)⟩))
      ∧ evaluate (opNode .plus (opNode .plus (.RingElement ⟨((1 : Nat) : Int)⟩)
          (.RingElement ⟨((2 : Nat) : Int)⟩)) (.RingElement ⟨((3 : Nat) : Int)⟩)) =
        evaluate (opNode .plus (.Parentheses (opNode .plus (.RingElement ⟨((1 : Nat) : Int)⟩)
          (.RingElement ⟨((2 : Nat) : Int)⟩))) (.RingElement ⟨((3 : Nat) : Int)⟩))) :=
  ⟨by decide, by decide, by decide,
    left_associativity .plus 1 2 3 (by decide) (by decide) (by decide)⟩

/-- The numeric value of a digit string, most significant digit first. -/
def digitsVal (ds : List Char) : Int :=
  ds.foldl (fun acc ch => acc * 10 + ((ch.toNat : Int) - 48)) 0

theorem foldl_digits_ge : ∀ (ds : List Char) (acc : Int), 0 ≤ acc →
    (∀ ch ∈ ds, 48 ≤ ch.toNat) →
    acc ≤ ds.foldl (fun a ch => a * 10 + ((ch.toNat : Int) - 48)) acc := by
  intro ds
  induction ds with
  | nil => intro acc h _; exact le_refl acc
  | cons ch ds' ih =>
    intro acc hacc hds
    have hch : 48 ≤ ch.toNat := hds ch (List.mem_cons_self ch ds')
    have hstep : acc ≤ acc * 10 + ((ch.toNat : Int) - 48) := by omega
    have hstep0 : 0 ≤ acc * 10 + ((ch.toNat : Int) - 48) := by omega
    rw [List.foldl_cons]
    exact le_trans hstep
      (ih (acc * 10 + ((ch.toNat : Int) - 48)) hstep0
        (fun c hc => hds c (List.mem_cons_of_mem ch hc)))

theorem parseDigitsAcc_ascii : ∀ (ds : List Char) (acc : Int), 0 ≤ acc → acc ≤ i64Max →
    (∀ ch ∈ ds, 48 ≤ ch.toNat ∧ ch.toNat ≤ 57) →
    parseDigitsAcc true acc ds =
      if ds.foldl (fun a ch => a * 10 + ((ch.toNat : Int) - 48)) acc ≤ i64Max
      then some (ds.foldl (fun a ch => a * 10 + ((ch.toNat : Int) - 48)) acc)
      else none := by
  intro ds
  induction ds with
  | nil =>
    intro acc hacc hmax _
    rw [List.foldl_nil, if_pos hmax]
    rfl
  | cons ch ds' ih =>
    intro acc hacc hmax hds
    obtain ⟨h48, h57⟩ := hds ch (List.mem_cons_self ch ds')
    have hdig : rustToDigit ch = some (ch.toNat - 48) := by
      rw [rustToDigit, if_pos ⟨h48, h57⟩]
    have hds' : ∀ c ∈ ds', 48 ≤ c.toNat ∧ c.toNat ≤ 57 :=
      fun c hc => hds c (List.mem_cons_of_mem ch hc)
    have hcast : ((ch.toNat - 48 : Nat) : Int) = (ch.toNat : Int) - 48 := by omega
    have hfold : (ch :: ds').foldl (fun a c => a * 10 + ((c.toNat : Int) - 48)) acc =
        ds'.foldl (fun a c => a * 10 + ((c.toNat : Int) - 48))
          (acc * 10 + ((ch.toNat : Int) - 48)) := List.foldl_cons _ _
    rw [hfold]
    simp only [parseDigitsAcc, hdig, Option.some_bind, cond_true]
    by_cases hmul : acc * 10 ≤ i64Max
    · have hm : checkedMul acc 10 = some (acc * 10) := by
        rw [checkedMul, if_pos]
        exact ⟨by simp only [i64Min]; omega, hmul⟩
      rw [hm, Option.some_bind]
      by_cases hadd : acc * 10 + ((ch.toNat : Int) - 48) ≤ i64Max
      · have ha : checkedAdd (acc * 10) (ch.toNat - 48 : Nat) = 
            some (acc * 10 + ((ch.toNat : Int) - 48)) := by
          rw [checkedAdd, if_pos]
          · rw [hcast]
          · rw [hcast]
            exact ⟨by simp only [i64Min]; omega, hadd⟩
        rw [ha, Option.some_bind]
        exact ih (acc * 10 + ((ch.toNat : Int) - 48)) (by omega) hadd hds'
      · have ha : checkedAdd (acc * 10) (ch.toNat - 48 : Nat) = none := by
          rw [checkedAdd, if_neg]
          rw [hcast]
          intro hcon
          exact hadd hcon.2
        rw [ha, Option.none_bind]
        have hge := foldl_digits_ge ds' (acc * 10 + ((ch.toNat : Int) - 48)) (by omega)
          (fun c hc => (hds' c hc).1)
        rw [if_neg (by omega)]
    · have hm : checkedMul acc 10 = none := by
        rw [checkedMul, if_neg]
        intro hcon
        exact hmul hcon.2
      rw [hm, Option.none_bind]
      have hge := foldl_digits_ge ds' (acc * 10 + ((ch.toNat : Int) - 48)) (by omega)
        (fun c hc => (hds' c hc).1)
      rw [if_neg (by omega)]

/-- The first element of the list, if any, is an ASCII character that is
not a digit.  A digit run surely ends before such a character, in the
embedding and in the source alike, because no ASCII character other than
`0`-`9` satisfies Rust `char::is_numeric`. -/
def headAsciiNonDigit : List (Nat × Char) → Prop
  | [] => True
  | q :: _ => q.2.toNat < 128 ∧ ¬(48 ≤ q.2.toNat ∧ q.2.toNat ≤ 57)

theorem headAsciiNonDigit_stops {rest : List (Nat × Char)}
    (h : headAsciiNonDigit rest) : headFails (fun q => rustIsNumeric q.2) rest := by
  cases rest with
  | nil => trivial
  | cons q r =>
    obtain ⟨h1, h2⟩ := h
    simp only [headFails, rustIsNumeric, decide_eq_false_iff_not]
    omega

/-- C9 (amended): restricted to ASCII input the rejection rule is as
documented: an ASCII character that is no operator or parenthesis, not `m`,
not whitespace and not a digit fails with `"Invalid token"` at its own
position; a maximal run of ASCII digits — maximality witnessed by the run
being followed by an ASCII non-digit or by the end of the input — is parsed
as a signed 64-bit integer, yielding a `DecimalInteger` token of its value
when it is at most `i64::MAX` and failing with `"Decimal number too big"`
at the run's starting position exactly when it exceeds `i64::MAX`.  The
rule does not extend beyond ASCII, because the lexer's digit test is Rust's
Unicode `char::is_numeric`: see the counterexample at the Arabic-Indic
digit U+0663. -/
theorem lexer_rejection_rule :
    (∀ (k : Nat) (c : Char) (rest : List (Nat × Char)),
      c.toNat < 128 →
      ¬c = '(' → ¬c = ')' → ¬c = '+' → ¬c = '-' → ¬c = '*' → ¬c = '/' → ¬c = 'm' →
      rustIsWhitespace c = false →
      ¬(48 ≤ c.toNat ∧ c.toNat ≤ 57) →
      read_next_token (k, c) rest = .error ⟨"Invalid token", k⟩)
    ∧ (∀ (k : Nat) (c : Char) (pcs rest : List (Nat × Char)),
      48 ≤ c.toNat → c.toNat ≤ 57 →
      (∀ q ∈ pcs, 48 ≤ q.2.toNat ∧ q.2.toNat ≤ 57) →
      headAsciiNonDigit rest →
      ((digitsVal (c :: pcs.map Prod.snd) ≤ i64Max →
        read_next_token (k, c) (pcs ++ rest) =
          .ok (.DecimalInteger (digitsVal (c :: pcs.map Prod.snd)), rest))
      ∧ (i64Max < digitsVal (c :: pcs.map Prod.snd) →
        read_next_token (k, c) (pcs ++ rest) =
          .error ⟨"Decimal number too big", k⟩))) := by
  constructor
  · intro k c rest hascii h1 h2 h3 h4 h5 h6 h7 _ h9
    have hnum : rustIsNumeric c = false := by
      rw [rustIsNumeric, decide_eq_false_iff_not]
      omega
    rw [read_next_token]
    simp only [if_neg h1, if_neg h2, if_neg h3, if_neg h4, if_neg h5, if_neg h6,
      if_neg h7, hnum]
    rfl
  · intro k c pcs rest h48 h57 hpcs hrest
    have hdigits : ∀ ch ∈ c :: pcs.map Prod.snd, 48 ≤ ch.toNat ∧ ch.toNat ≤ 57 := by
      intro ch hch
      rcases List.mem_cons.mp hch with h | h
      · rw [h]; exact ⟨h48, h57⟩
      · obtain ⟨q, hq, hq2⟩ := List.mem_map.mp h
        rw [← hq2]
        exact hpcs q hq
    have hparse : rustParseI64 (c :: pcs.map Prod.snd) =
        if digitsVal (c :: pcs.map Prod.snd) ≤ i64Max
        then some (digitsVal (c :: pcs.map Prod.snd)) else none := by
      obtain ⟨hp1, hp2, hp3, hp4, hp5, hp6, hp7, _, _⟩ := digit_char_classes h48 h57
      rw [rustParseI64, if_neg hp3, if_neg hp4]
      exact parseDigitsAcc_ascii (c :: pcs.map Prod.snd) 0 le_rfl (by rw [i64Max]; positivity)
        hdigits
    have hpcsnum : ∀ q ∈ pcs, rustIsNumeric q.2 = true := by
      intro q hq
      obtain ⟨hq1, hq2⟩ := hpcs q hq
      exact (digit_char_classes hq1 hq2).2.2.2.2.2.2.2.1
    have hrun := @read_next_token_run k c pcs rest h48 h57 hpcsnum
      (headAsciiNonDigit_stops hrest)
    constructor
    · intro hle
      rw [hrun, hparse, if_pos hle]
    · intro hgt
      rw [hrun, hparse, if_neg (by omega)]

/-- C9 (counterexample): the Arabic-Indic digit U+0663 is not an ASCII digit
and none of the special characters, yet the lexer does not fail with
`"Invalid token"` at it — it begins a numeric run whose `i64` parse fails, so
the error is `"Decimal number too big"`. -/
theorem lexer_nonascii_numeric_counterexample :
    tokenize [Char.ofNat 0x663] = .fail ⟨"Decimal number too big", 0⟩ ∧
    ¬tokenize [Char.ofNat 0x663] = .fail ⟨"Invalid token", 0⟩ := by
  exact ⟨by decide, by decide⟩

/-- The exclamation mark, an invalid ASCII character for the lexer. -/
def excl : Char := '!'

/-- The ASCII digit five. -/
def five : Char := '5'

/-- Witness for C9 at the characters `!` (invalid) and `5` (digit run). -/
theorem lexer_rejection_rule_witness :
    (Char.toNat excl < 128 ∧ ¬excl = '(' ∧ ¬excl = ')' ∧ ¬excl = '+' ∧ ¬excl = '-' ∧
      ¬excl = '*' ∧ ¬excl = '/' ∧ ¬excl = 'm' ∧ rustIsWhitespace excl = false ∧
      ¬(48 ≤ Char.toNat excl ∧ Char.toNat excl ≤ 57) ∧
      48 ≤ Char.toNat five ∧ Char.toNat five ≤ 57 ∧ digitsVal [five] ≤ i64Max)
    ∧ read_next_token (0, excl) [] = .error ⟨"Invalid token", 0⟩
    ∧ read_next_token (0, five) ([] ++ []) =
      .ok (.DecimalInteger (digitsVal (five :: List.map Prod.snd ([] : List (Nat × Char)))),
        []) :=
  ⟨by decide,
    lexer_rejection_rule.1 0 excl [] (by decide) (by decide) (by decide) (by decide)
      (by decide) (by decide) (by decide) (by decide) (by decide) (by decide),
    (lexer_rejection_rule.2 0 five [] [] (by decide) (by decide)
      (by intro q hq; cases hq) trivial).1 (by decide)⟩

theorem rustIsNumeric_ne_sign {c : Char} (h : rustIsNumeric c = true) :
    ¬c = '+' ∧ ¬c = '-' := by
  constructor <;> intro he <;> rw [he] at h <;> exact absurd h (by decide)

theorem parseDigitsAcc_nonneg : ∀ (l : List Char) (acc v : Int),
    parseDigitsAcc true acc l = some v → 0 ≤ acc → 0 ≤ v := by
  intro l
  induction l with
  | nil =>
    intro acc v h hacc
    simp only [parseDigitsAcc, Option.some.injEq] at h
    omega
  | cons ch l' ih =>
    intro acc v h hacc
    simp only [parseDigitsAcc, cond_true] at h
    cases hd : rustToDigit ch with
    | none => rw [hd, Option.none_bind] at h; cases h
    | some d =>
      rw [hd, Option.some_bind] at h
      cases hm : checkedMul acc 10 with
      | none => rw [hm, Option.none_bind] at h; cases h
      | some m =>
        rw [hm, Option.some_bind] at h
        cases ha2 : checkedAdd m (d : Int) with
        | none => rw [ha2, Option.none_bind] at h; cases h
        | some acc2 =>
          rw [ha2, Option.some_bind] at h
          have hm' : m = acc * 10 := by
            rw [checkedMul] at hm
            split_ifs at hm
            exact (Option.some.injEq _ _).mp hm |>.symm
          have ha2' : acc2 = m + d := by
            rw [checkedAdd] at ha2
            split_ifs at ha2
            exact (Option.some.injEq _ _).mp ha2 |>.symm
          exact ih acc2 v h (by omega)

theorem rustParseI64_nonneg {c : Char} {l : List Char} {v : Int}
    (hnum : rustIsNumeric c = true) (h : rustParseI64 (c :: l) = some v) : 0 ≤ v := by
  obtain ⟨hp, hm⟩ := rustIsNumeric_ne_sign hnum
  rw [rustParseI64, if_neg hp, if_neg hm] at h
  exact parseDigitsAcc_nonneg (c :: l) 0 v h le_rfl

theorem read_next_token_decimal_nonneg {pc : Nat × Char} {rest rem : List (Nat × Char)}
    {d : Int} (h : read_next_token pc rest = .ok (.DecimalInteger d, rem)) : 0 ≤ d := by
  obtain ⟨k, c⟩ := pc
  rw [read_next_token] at h
  split_ifs at h with h1 h2 h3 h4 h5 h6 h7 h8 h9
  all_goals try cases h
  simp only [] at h
  cases hp : rustParseI64 ((((k, c) :: rest).takeWhile
      (fun q => rustIsNumeric q.2)).map Prod.snd) with
  | none =>
    rw [hp] at h
    cases h
  | some v =>
    rw [hp] at h
    simp only [Except.ok.injEq, Prod.mk.injEq, IntRingToken.DecimalInteger.injEq] at h
    have h9' : rustIsNumeric c = true := h9
    rw [List.takeWhile_cons_of_pos (by simpa using h9'), List.map_cons] at hp
    exact h.1 ▸ rustParseI64_nonneg h9' hp

theorem tokenizeLoop_decimal_nonneg : ∀ (fuel : Nat) (input : List (Nat × Char))
    (ts : List TokenWithPos), tokenizeLoop fuel input = .ok ts →
    ∀ tw ∈ ts, ∀ d : Int, tw.token = .DecimalInteger d → 0 ≤ d := by
  intro fuel
  induction fuel with
  | zero =>
    intro input ts h
    cases h
  | succ f ih =>
    intro input ts h tw htw d htok
    cases hdrop : input.dropWhile (fun q => rustIsWhitespace q.2) with
    | nil =>
      simp only [tokenizeLoop, hdrop] at h
      cases h
      cases htw
    | cons pc rest =>
      simp only [tokenizeLoop, hdrop] at h
      cases hread : read_next_token pc rest with
      | error e =>
        simp only [hread] at h
        cases h
      | ok tr =>
        obtain ⟨t, rem⟩ := tr
        simp only [hread] at h
        cases hrec : tokenizeLoop f rem with
        | ok ts' =>
          simp only [hrec] at h
          cases h
          rcases List.mem_cons.mp htw with he | hm
          · rw [he] at htok
            have htok' : t = .DecimalInteger d := htok
            rw [htok'] at hread
            exact read_next_token_decimal_nonneg hread
          · exact ih rem ts' hrec tw hm d htok
        | fail e =>
          simp only [hrec] at h
          cases h
        | panicked =>
          simp only [hrec] at h
          cases h
        | outOfFuel =>
          simp only [hrec] at h
          cases h

/-- C10: every `DecimalInteger` token the lexer yields carries a non-negative
value — a `-` is always lexed as the separate `MinusSign` token and never as
the sign of a literal. -/
theorem decimal_tokens_nonneg (s : List Char) (ts : List TokenWithPos)
    (h : tokenize s = .ok ts) :
    ∀ tw ∈ ts, ∀ d : Int, tw.token = .DecimalInteger d → 0 ≤ d :=
  tokenizeLoop_decimal_nonneg (s.length + 1) (enumerate 0 s) ts h

/-- Witness for C10 on the input `"5"`. -/
theorem decimal_tokens_nonneg_witness :
    tokenize ['5'] = .ok [⟨.DecimalInteger 5, 0⟩] ∧
      ((⟨.DecimalInteger 5, 0⟩ : TokenWithPos) ∈ [(⟨.DecimalInteger 5, 0⟩ : TokenWithPos)] ∧
        (⟨.DecimalInteger 5, 0⟩ : TokenWithPos).token = .DecimalInteger 5 ∧
        (0 : Int) ≤ 5) :=
  ⟨by decide, by decide, rfl,
    decimal_tokens_nonneg ['5'] [⟨.DecimalInteger 5, 0⟩] (by decide)
      ⟨.DecimalInteger 5, 0⟩ (by decide) 5 rfl⟩

/-- Witness for C3 at `n = 42`. -/
theorem parse_evaluate_roundtrip_witness :
    (0 : Int) ≤ 42 ∧ (42 : Int) ≤ i64Max ∧
      (parse_int_ring_expression (intDecimalChars 42) = .ok (.RingElement ⟨42⟩)
      ∧ evaluate (.RingElement ⟨(42 : Int)⟩) = .ok ⟨42⟩) :=
  ⟨by decide, by decide, parse_evaluate_roundtrip 42 (by decide) (by decide)⟩
